import Mathlib

/-!
Shallow embedding of the call-centre queueing simulation
(`simulation.py`, `modele_kolejkowe.py`, `valid_simulation.py`).

Queues are `asyncio.Queue` instances: FIFO lists with a `maxsize` where
`maxsize = 0` means unbounded (CPython's `Queue.full()` returns `False`
whenever `maxsize <= 0`, otherwise `qsize() >= maxsize`).  Floating-point
durations are embedded as rationals; they never influence the control flow
of the properties below.
-/

/-- State of one `Responder` (`simulation.py`, class `Responder`).
`queue` holds the calls of its `asyncio.Queue(maxsize=buffer_size)`,
front of the list = oldest element. -/
structure Responder where
  name : String
  maxsize : Nat
  mean_handling_time : ℚ
  break_threshold : Nat
  break_time : ℚ
  queue : List Nat
  processed : Nat
  rejected : Nat
  calls_since_break : Nat
  deriving DecidableEq

/-- `Responder.__init__`: stores the parameters and zeroes the counters.
The source performs no validation of any parameter. -/
def Responder.init (name : String) (buffer_size : Nat) (mu : ℚ)
    (break_threshold : Nat) (break_time : ℚ) : Responder :=
  { name := name
    maxsize := buffer_size
    mean_handling_time := mu
    break_threshold := break_threshold
    break_time := break_time
    queue := []
    processed := 0
    rejected := 0
    calls_since_break := 0 }

/-- `asyncio.Queue.full()`: `False` when `maxsize <= 0`, else
`qsize() >= maxsize`. -/
def Responder.queueFull (r : Responder) : Bool :=
  if r.maxsize = 0 then false else decide (r.maxsize ≤ r.queue.length)

/-- `Responder.receive` (`simulation.py` lines 36-42, identical logic in
`valid_simulation.py` `Consultant.receive`): if the queue is full, count a
rejection and drop the call; otherwise put the call at the back. -/
def Responder.receive (r : Responder) (call : Nat) : Responder :=
  if r.queueFull then { r with rejected := r.rejected + 1 }
  else { r with queue := r.queue ++ [call] }

/-- Python's `min(servers, key=...)` fold: keeps the current best and
replaces it only on a strictly smaller key, so ties keep the earliest
element. -/
def pyMinFold (key : Responder → Nat) : Responder → List Responder → Responder
  | best, [] => best
  | best, x :: xs =>
      if key x < key best then pyMinFold key x xs else pyMinFold key best xs

/-- `route_shortest_queue` (`simulation.py` lines 74-75):
`min(servers, key=lambda s: s.queue.qsize())`.  Python's `min` raises on an
empty sequence, embedded as `none`. -/
def route_shortest_queue (servers : List Responder) : Option Responder :=
  match servers with
  | [] => none
  | s :: ss => some (pyMinFold (fun r => r.queue.length) s ss)

/-- `avg_wait_time` (`modele_kolejkowe.py` line 104):
`sum(total_wait_time) / len(total_wait_time) if total_wait_time else 0`. -/
def avg_wait_time (total_wait_time : List ℚ) : ℚ :=
  if total_wait_time = [] then 0
  else total_wait_time.sum / total_wait_time.length

/-- Admitting a whole list of calls one by one through `receive`. -/
def Responder.receiveAll (r : Responder) (calls : List Nat) : Responder :=
  calls.foldl Responder.receive r

-- Basic lemmas about `receive`.

theorem receive_of_full (r : Responder) (call : Nat) (h : r.queueFull = true) :
    r.receive call = { r with rejected := r.rejected + 1 } := by
  simp [Responder.receive, h]

theorem receive_of_not_full (r : Responder) (call : Nat)
    (h : r.queueFull = false) :
    r.receive call = { r with queue := r.queue ++ [call] } := by
  simp [Responder.receive, h]

theorem queueFull_iff_of_bounded (r : Responder) (hC : 1 ≤ r.maxsize) :
    r.queueFull = true ↔ r.maxsize ≤ r.queue.length := by
  have hne : r.maxsize ≠ 0 := by omega
  simp [Responder.queueFull, hne]

/-- With `maxsize = 0` the queue is never full (asyncio treats it as
unbounded). -/
theorem queueFull_of_zero (r : Responder) (h : r.maxsize = 0) :
    r.queueFull = false := by
  simp [Responder.queueFull, h]

/-- Python's `min` fold returns an element of the scanned sequence that is
minimal for the key, located after a (possibly empty) prefix of strictly
larger elements: ties are broken by the earliest position. -/
theorem pyMinFold_spec (key : Responder → Nat) :
    ∀ (l : List Responder) (b : Responder),
      ∃ l1 l2, b :: l = l1 ++ pyMinFold key b l :: l2 ∧
        (∀ y ∈ l1, key (pyMinFold key b l) < key y) ∧
        (∀ y ∈ b :: l, key (pyMinFold key b l) ≤ key y) := by
  intro l
  induction l with
  | nil =>
      intro b
      exact ⟨[], [], rfl, by simp, by simp [pyMinFold]⟩
  | cons x xs ih =>
      intro b
      by_cases hx : key x < key b
      · obtain ⟨l1, l2, hdec, hstrict, hmin⟩ := ih x
        have hle : key (pyMinFold key x xs) ≤ key x := hmin x (by simp)
        refine ⟨b :: l1, l2, ?_, ?_, ?_⟩
        · simp [pyMinFold, hx, ← hdec]
        · intro y hy
          rcases List.mem_cons.mp hy with hy | hy
          · subst hy
            simp [pyMinFold, hx]
            omega
          · simpa [pyMinFold, hx] using hstrict y hy
        · intro y hy
          rcases List.mem_cons.mp hy with hy | hy
          · subst hy
            simp [pyMinFold, hx]
            omega
          · simpa [pyMinFold, hx] using hmin y hy
      · obtain ⟨l1, l2, hdec, hstrict, hmin⟩ := ih b
        have hbx : key b ≤ key x := by omega
        have hle : key (pyMinFold key b xs) ≤ key b := hmin b (by simp)
        cases l1 with
        | nil =>
            have hb : pyMinFold key b xs = b := by
              have := hdec
              simp at this
              exact this.1.symm
            refine ⟨[], x :: xs, ?_, by simp, ?_⟩
            · simp [pyMinFold, hx, hb]
            · intro y hy
              rcases List.mem_cons.mp hy with hy | hy
              · subst hy
                simpa [pyMinFold, hx] using hle
              · rcases List.mem_cons.mp hy with hy | hy
                · subst hy
                  simp [pyMinFold, hx]
                  omega
                · simpa [pyMinFold, hx] using hmin y (by simp [hy])
        | cons a t =>
            have ha : a = b ∧ xs = t ++ pyMinFold key b xs :: l2 := by
              have := hdec
              simp at this
              exact ⟨this.1.symm, this.2⟩
            have hstrictb : key (pyMinFold key b xs) < key b :=
              hstrict b (by simp [ha.1.symm])
            refine ⟨b :: x :: t, l2, ?_, ?_, ?_⟩
            · have hfold : pyMinFold key b (x :: xs) = pyMinFold key b xs := by
                simp [pyMinFold, hx]
              rw [hfold]
              conv_lhs => rw [ha.2]
              simp
            · intro y hy
              rcases List.mem_cons.mp hy with hy | hy
              · subst hy
                simpa [pyMinFold, hx] using hstrictb
              · rcases List.mem_cons.mp hy with hy | hy
                · subst hy
                  simp [pyMinFold, hx]
                  omega
                · exact by simpa [pyMinFold, hx] using hstrict y (by simp [ha.1, hy])
            · intro y hy
              rcases List.mem_cons.mp hy with hy | hy
              · subst hy
                simpa [pyMinFold, hx] using hle
              · rcases List.mem_cons.mp hy with hy | hy
                · subst hy
                  simp [pyMinFold, hx]
                  omega
                · simpa [pyMinFold, hx] using hmin y (by simp [hy])

/-- C5: for every non-empty list of agents, `route_shortest_queue` returns an
agent whose queue size is ≤ every other agent's queue size at selection time,
with ties broken in favour of the earliest agent in input order (the chosen
agent sits after a prefix of agents with strictly larger queues); the routing
function is pure, returning an element of the input list unchanged. -/
theorem route_shortest_queue_spec (servers : List Responder) (r : Responder)
    (h : route_shortest_queue servers = some r) :
    r ∈ servers ∧
    (∀ a ∈ servers, r.queue.length ≤ a.queue.length) ∧
    ∃ l1 l2, servers = l1 ++ r :: l2 ∧
      ∀ y ∈ l1, r.queue.length < y.queue.length := by
  match servers with
  | [] => simp [route_shortest_queue] at h
  | s :: ss =>
      have hr : r = pyMinFold (fun a => a.queue.length) s ss := by
        simpa [route_shortest_queue] using h.symm
      obtain ⟨l1, l2, hdec, hstrict, hmin⟩ :=
        pyMinFold_spec (fun a => a.queue.length) ss s
      subst hr
      refine ⟨?_, ?_, l1, l2, hdec, hstrict⟩
      · rw [hdec]
        simp
      · intro a ha
        exact hmin a ha

def respA : Responder := (Responder.init "A" 3 1 5 10).receive 7

def respB : Responder := Responder.init "B" 3 1 5 10

/-- Witness for C5 at a concrete two-agent roster where the second agent has
the strictly shorter queue. -/
theorem route_shortest_queue_spec_witness :
    respB ∈ [respA, respB] ∧
    (∀ a ∈ [respA, respB], respB.queue.length ≤ a.queue.length) ∧
    ∃ l1 l2, [respA, respB] = l1 ++ respB :: l2 ∧
      ∀ y ∈ l1, respB.queue.length < y.queue.length :=
  route_shortest_queue_spec [respA, respB] respB (by rfl)

/-- C3: `receive` rejects a call if and only if the queue is at capacity at
the instant of the attempt; on rejection it increments the rejection counter
and leaves every other field (so the queue contents, and the dropped call
appears nowhere); on admission it appends the call to the back of the queue
and leaves the rejection counter (and all other counters) unchanged.  The
embedded `receive` is a total function: it never blocks. -/
theorem receive_reject_iff_at_capacity (r : Responder) (call : Nat)
    (hC : 1 ≤ r.maxsize) :
    (r.queue.length = r.maxsize →
        r.receive call = { r with rejected := r.rejected + 1 }) ∧
    (r.queue.length < r.maxsize →
        r.receive call = { r with queue := r.queue ++ [call] }) := by
  constructor
  · intro hfull
    apply receive_of_full
    rw [queueFull_iff_of_bounded r hC]
    omega
  · intro hroom
    apply receive_of_not_full
    have : ¬ (r.maxsize ≤ r.queue.length) := by omega
    by_cases h0 : r.maxsize = 0
    · omega
    · simp [Responder.queueFull, h0, this]

def respFull : Responder := (Responder.init "F" 1 1 5 10).receive 0

/-- Witness for C3 at a capacity-1 responder whose queue is full. -/
theorem receive_reject_iff_at_capacity_witness :
    (respFull.queue.length = respFull.maxsize →
        respFull.receive 1 = { respFull with rejected := respFull.rejected + 1 }) ∧
    (respFull.queue.length < respFull.maxsize →
        respFull.receive 1 = { respFull with queue := respFull.queue ++ [1] }) :=
  receive_reject_iff_at_capacity respFull 1 (by decide)

/-- C6 counterexample: constructing a `Responder` with capacity 0 (and a
non-positive mean service time and break threshold) does not fail — the
source has no parameter validation and no `InvalidParameter` anywhere — and
the resulting queue, far from rejecting at construction, admits the first
call: `asyncio.Queue(maxsize=0)` is unbounded. -/
theorem construction_capacity_zero_succeeds :
    (Responder.init "R" 0 (-1) 0 (-1)).maxsize = 0 ∧
    ((Responder.init "R" 0 (-1) 0 (-1)).receive 0).queue = [0] ∧
    ((Responder.init "R" 0 (-1) 0 (-1)).receive 0).rejected = 0 := by
  refine ⟨rfl, ?_, ?_⟩ <;>
    simp [Responder.init, Responder.receive, Responder.queueFull]

theorem receiveAll_of_zero_maxsize :
    ∀ (calls : List Nat) (r : Responder), r.maxsize = 0 →
      (r.receiveAll calls).queue = r.queue ++ calls ∧
      (r.receiveAll calls).rejected = r.rejected := by
  intro calls
  induction calls with
  | nil => intro r h; simp [Responder.receiveAll]
  | cons c cs ih =>
      intro r h
      have hstep : r.receive c = { r with queue := r.queue ++ [c] } :=
        receive_of_not_full r c (queueFull_of_zero r h)
      have := ih (r.receive c) (by rw [hstep]; simpa using h)
      simp only [Responder.receiveAll, List.foldl_cons] at *
      rw [hstep] at this ⊢
      simpa using this

/-- C6 amended: construction performs no validation — `Responder.__init__`
(and `simulate_queue`) accept non-positive rate, mean, capacity and break
threshold without any error, there is no `InvalidParameter` in the code, and
a capacity of 0 produces an `asyncio.Queue` that Python treats as unbounded:
every call in any arrival sequence is admitted and none is ever rejected. -/
theorem init_accepts_all_parameters (name : String) (mu bt : ℚ)
    (break_threshold : Nat) (calls : List Nat) :
    ((Responder.init name 0 mu break_threshold bt).receiveAll calls).queue = calls ∧
    ((Responder.init name 0 mu break_threshold bt).receiveAll calls).rejected = 0 := by
  have := receiveAll_of_zero_maxsize calls (Responder.init name 0 mu break_threshold bt) rfl
  simpa [Responder.init] using this

/-- C10: the reported average wait time is 0 when no wait times were
recorded (no division by zero is attempted), and equals the sum of the
recorded wait times divided by their count — a genuine division, witnessed
by multiplying back — whenever at least one client was processed. -/
theorem avg_wait_time_spec :
    avg_wait_time [] = 0 ∧
    ∀ l : List ℚ, l ≠ [] →
      avg_wait_time l = l.sum / l.length ∧
      (l.length : ℚ) * avg_wait_time l = l.sum := by
  refine ⟨rfl, ?_⟩
  intro l hl
  have hlen : (l.length : ℚ) ≠ 0 := by
    have : l.length ≠ 0 := by
      simpa [List.length_eq_zero] using hl
    exact_mod_cast this
  constructor
  · simp [avg_wait_time, hl]
  · simp [avg_wait_time, hl]
    rw [mul_div_cancel₀ _ hlen]

/-- Witness for C10 at the concrete wait-time list `[2, 4]`. -/
theorem avg_wait_time_spec_witness :
    avg_wait_time ([2, 4] : List ℚ) = ([2, 4] : List ℚ).sum / (([2, 4] : List ℚ).length : ℚ) ∧
    ((([2, 4] : List ℚ).length : ℚ)) * avg_wait_time ([2, 4] : List ℚ) = ([2, 4] : List ℚ).sum :=
  avg_wait_time_spec.2 [2, 4] (by decide)

/-- Phase of one `Responder.run` loop (`simulation.py` lines 54-69): waiting
on `queue.get()`, handling a call, or sleeping in `take_break`. -/
inductive RPhase
  | idle
  | handling (call : Nat)
  | onBreak
  deriving DecidableEq

/-- A responder together with the control point of its `run` coroutine. -/
structure AgentState where
  agent : Responder
  phase : RPhase
  deriving DecidableEq

/-- Global state of `simulate` (`simulation.py` lines 98-134): the arrival
generator's call counter and every responder worker. -/
structure SysState where
  nextCall : Nat
  agents : List AgentState
  deriving DecidableEq

/-- One cooperative-scheduler step of the simulation.  `arrive` is one
iteration of `assign_calls`: the routing function picks some responder index
`i` (any index, covering every routing policy) and `receive` admits or
rejects the generator's next call.  `getCall` is `queue.get()` returning in
an idle worker; `finishCall` is the return from the handling sleep together
with the counter updates and the break decision of `run`; `endBreak` is the
return from the `take_break` sleep, which only then resets
`calls_since_break` to 0. -/
inductive Step : SysState → SysState → Prop
  | arrive (s : SysState) (i : Nat) (h : i < s.agents.length) :
      Step s { nextCall := s.nextCall + 1,
               agents := s.agents.set i
                 ({ s.agents.get ⟨i, h⟩ with
                     agent := (s.agents.get ⟨i, h⟩).agent.receive s.nextCall }) }
  | getCall (s : SysState) (i : Nat) (h : i < s.agents.length) (c : Nat) (cs : List Nat)
      (hq : (s.agents.get ⟨i, h⟩).agent.queue = c :: cs)
      (hp : (s.agents.get ⟨i, h⟩).phase = RPhase.idle) :
      Step s { s with
               agents := s.agents.set i
                 ({ agent := { (s.agents.get ⟨i, h⟩).agent with queue := cs },
                    phase := RPhase.handling c }) }
  | finishCall (s : SysState) (i : Nat) (h : i < s.agents.length) (c : Nat)
      (hp : (s.agents.get ⟨i, h⟩).phase = RPhase.handling c) :
      Step s { s with
               agents := s.agents.set i
                 ({ agent := { (s.agents.get ⟨i, h⟩).agent with
                       processed := (s.agents.get ⟨i, h⟩).agent.processed + 1,
                       calls_since_break := (s.agents.get ⟨i, h⟩).agent.calls_since_break + 1 },
                    phase := if (s.agents.get ⟨i, h⟩).agent.break_threshold ≤
                                (s.agents.get ⟨i, h⟩).agent.calls_since_break + 1
                             then RPhase.onBreak else RPhase.idle }) }
  | endBreak (s : SysState) (i : Nat) (h : i < s.agents.length)
      (hp : (s.agents.get ⟨i, h⟩).phase = RPhase.onBreak) :
      Step s { s with
               agents := s.agents.set i
                 ({ agent := { (s.agents.get ⟨i, h⟩).agent with calls_since_break := 0 },
                    phase := RPhase.idle }) }

/-- States reachable from `s0` by any interleaving of scheduler steps.  A
fixed-duration run (`simulate` cancels all tasks after `simulation_time`)
can be torn down in any reachable state. -/
inductive Reachable (s0 : SysState) : SysState → Prop
  | refl : Reachable s0 s0
  | step {s s' : SysState} : Reachable s0 s → Step s s' → Reachable s0 s'

/-- Initial state built by `simulate` (`simulation.py` lines 110-113):
`num_responders` fresh responders, all idle, generator counter at 0. -/
def initSys (num_responders buffer_size : Nat) (mu : ℚ) (break_threshold : Nat)
    (break_time : ℚ) : SysState :=
  { nextCall := 0
    agents := (List.range num_responders).map fun i =>
      { agent := Responder.init ("Responder-" ++ toString (i + 1)) buffer_size mu
          break_threshold break_time
        phase := RPhase.idle } }

/-- 1 if the worker holds a call it took from its queue but has not yet
counted as processed, otherwise 0. -/
def inFlight (a : AgentState) : Nat :=
  match a.phase with
  | RPhase.handling _ => 1
  | _ => 0

/-- Per-agent account of every call that ever reached this agent. -/
def contribution (a : AgentState) : Nat :=
  a.agent.processed + a.agent.rejected + a.agent.queue.length + inFlight a

def totalProcessed (s : SysState) : Nat :=
  (s.agents.map fun a => a.agent.processed).sum

def totalRejected (s : SysState) : Nat :=
  (s.agents.map fun a => a.agent.rejected).sum

def totalQueued (s : SysState) : Nat :=
  (s.agents.map fun a => a.agent.queue.length).sum

def totalInFlight (s : SysState) : Nat :=
  (s.agents.map inFlight).sum

/-- Replacing one element changes a mapped sum by the difference of images. -/
theorem sum_map_set (f : AgentState → Nat) :
    ∀ (l : List AgentState) (i : Nat) (x : AgentState) (h : i < l.length),
      ((l.set i x).map f).sum + f (l.get ⟨i, h⟩) = (l.map f).sum + f x := by
  intro l
  induction l with
  | nil => intro i x h; simp at h
  | cons a t ih =>
      intro i x h
      cases i with
      | zero => simp; omega
      | succ n =>
          have hn : n < t.length := by simpa using h
          have := ih n x hn
          simp only [List.set_cons_succ, List.map_cons, List.sum_cons, List.get_cons_succ]
          omega

theorem receive_maxsize (r : Responder) (c : Nat) :
    (r.receive c).maxsize = r.maxsize := by
  unfold Responder.receive; split <;> rfl

theorem receive_break_fields (r : Responder) (c : Nat) :
    (r.receive c).break_threshold = r.break_threshold ∧
    (r.receive c).calls_since_break = r.calls_since_break := by
  unfold Responder.receive; split <;> exact ⟨rfl, rfl⟩

/-- `receive` accounts for exactly one call: it either lengthens the queue
or bumps the rejection counter. -/
theorem contribution_receive (a : AgentState) (c : Nat) :
    contribution { a with agent := a.agent.receive c } = contribution a + 1 := by
  by_cases hf : a.agent.queueFull = true
  · rw [receive_of_full a.agent c hf]
    simp [contribution, inFlight]
    omega
  · have hf' : a.agent.queueFull = false := by simpa using hf
    rw [receive_of_not_full a.agent c hf']
    simp [contribution, inFlight]
    omega

/-- Global conservation account: every generated call is processed, rejected,
still queued, or in a worker's hands. -/
def conserved (s : SysState) : Prop :=
  (s.agents.map contribution).sum = s.nextCall

theorem sum_map_set_delta (f : AgentState → Nat) (l : List AgentState) (i : Nat)
    (x : AgentState) (h : i < l.length) (d : Nat)
    (hx : f x = f (l.get ⟨i, h⟩) + d) :
    ((l.set i x).map f).sum = (l.map f).sum + d := by
  have := sum_map_set f l i x h
  omega

theorem conserved_step {s s' : SysState} (hst : Step s s') (h : conserved s) :
    conserved s' := by
  unfold conserved at *
  cases hst with
  | arrive i hi =>
      dsimp only
      conv_rhs => rw [← h]
      apply sum_map_set_delta contribution s.agents i _ hi 1
      exact contribution_receive (s.agents.get ⟨i, hi⟩) s.nextCall
  | getCall i hi c cs hq hp =>
      dsimp only
      conv_rhs => rw [← h, ← Nat.add_zero ((s.agents.map contribution).sum)]
      apply sum_map_set_delta contribution s.agents i _ hi 0
      simp only [List.get_eq_getElem] at hq hp
      simp [contribution, inFlight, hq, hp]
      omega
  | finishCall i hi c hp =>
      dsimp only
      conv_rhs => rw [← h, ← Nat.add_zero ((s.agents.map contribution).sum)]
      apply sum_map_set_delta contribution s.agents i _ hi 0
      simp only [List.get_eq_getElem] at hp
      by_cases hb : s.agents[i].agent.break_threshold ≤
          s.agents[i].agent.calls_since_break + 1 <;>
        simp [contribution, inFlight, hp, hb] <;> omega
  | endBreak i hi hp =>
      dsimp only
      conv_rhs => rw [← h, ← Nat.add_zero ((s.agents.map contribution).sum)]
      apply sum_map_set_delta contribution s.agents i _ hi 0
      simp only [List.get_eq_getElem] at hp
      simp [contribution, inFlight, hp]

theorem reachable_conserved {s0 s : SysState} (h0 : conserved s0)
    (h : Reachable s0 s) : conserved s := by
  induction h with
  | refl => exact h0
  | step _ hst ih => exact conserved_step hst ih

theorem conserved_init (n C : Nat) (mu : ℚ) (bt : Nat) (btime : ℚ) :
    conserved (initSys n C mu bt btime) := by
  unfold conserved initSys
  dsimp only
  rw [List.sum_eq_zero]
  intro x hx
  simp only [List.map_map, List.mem_map] at hx
  obtain ⟨i, _, rfl⟩ := hx
  simp [contribution, Responder.init, inFlight]

theorem sum_contribution_decomp : ∀ (l : List AgentState),
    (l.map contribution).sum =
      (l.map fun a => a.agent.processed).sum +
      (l.map fun a => a.agent.rejected).sum +
      (l.map fun a => a.agent.queue.length).sum +
      (l.map inFlight).sum := by
  intro l
  induction l with
  | nil => simp
  | cons a t ih =>
      simp only [List.map_cons, List.sum_cons, contribution]
      omega

/-- C1 (amended): in every reachable state of a run — in particular at the
instant of teardown — the calls generated so far are exactly accounted for:
`total_processed + total_rejected + calls still queued + calls in a worker's
hands = total_calls_generated` (no call lost or double-counted); the claimed
equality `total_processed + total_rejected = total_calls_generated` holds
exactly when teardown finds the queues drained and no call in service, as
after `client_queue.join()` in `modele_kolejkowe.simulate_queue`, but not in
general for the fixed-duration `simulate` of `simulation.py`. -/
theorem call_conservation (n C : Nat) (mu : ℚ) (bt : Nat) (btime : ℚ)
    (s : SysState) (h : Reachable (initSys n C mu bt btime) s) :
    totalProcessed s + totalRejected s + totalQueued s + totalInFlight s =
      s.nextCall ∧
    (totalQueued s = 0 → totalInFlight s = 0 →
      totalProcessed s + totalRejected s = s.nextCall) := by
  have hc : conserved s := reachable_conserved (conserved_init n C mu bt btime) h
  unfold conserved at hc
  rw [sum_contribution_decomp] at hc
  unfold totalProcessed totalRejected totalQueued totalInFlight
  omega

/-- Witness for the C1 conservation theorem at a freshly constructed run. -/
theorem call_conservation_witness :
    totalProcessed (initSys 1 1 1 5 10) + totalRejected (initSys 1 1 1 5 10) +
      totalQueued (initSys 1 1 1 5 10) + totalInFlight (initSys 1 1 1 5 10) =
      (initSys 1 1 1 5 10).nextCall ∧
    (totalQueued (initSys 1 1 1 5 10) = 0 → totalInFlight (initSys 1 1 1 5 10) = 0 →
      totalProcessed (initSys 1 1 1 5 10) + totalRejected (initSys 1 1 1 5 10) =
        (initSys 1 1 1 5 10).nextCall) :=
  call_conservation 1 1 1 5 10 (initSys 1 1 1 5 10) Reachable.refl

def cexS0 : SysState := initSys 1 1 1 5 10

def cexS1 : SysState :=
  { nextCall := 1,
    agents := [ { agent := { name := "Responder-1", maxsize := 1,
                             mean_handling_time := 1, break_threshold := 5,
                             break_time := 10, queue := [0], processed := 0,
                             rejected := 0, calls_since_break := 0 },
                  phase := RPhase.idle } ] }

/-- C1 counterexample: the fixed-duration `simulate` can cancel its tasks
right after one generated call was admitted and before any worker processed
it.  In that completed run `total_processed + total_rejected = 0` while one
call was generated — the claimed equality fails; the missing call is still
sitting in the queue (the source itself prints `Calls in queues` at
teardown for exactly this reason). -/
theorem conservation_fails_at_teardown :
    Reachable cexS0 cexS1 ∧
    totalProcessed cexS1 + totalRejected cexS1 = 0 ∧
    cexS1.nextCall = 1 ∧
    totalQueued cexS1 = 1 := by
  refine ⟨?_, by decide, by decide, by decide⟩
  exact Reachable.step Reachable.refl (Step.arrive cexS0 0 (by decide))

/-- Pointwise queue invariant: every agent keeps the configured capacity and
its occupancy never exceeds it. -/
def QueueInv (C : Nat) (s : SysState) : Prop :=
  ∀ a ∈ s.agents, a.agent.maxsize = C ∧ a.agent.queue.length ≤ C

theorem receive_queue_length (r : Responder) (c : Nat) (hC : 1 ≤ r.maxsize)
    (hlen : r.queue.length ≤ r.maxsize) :
    (r.receive c).queue.length ≤ r.maxsize := by
  unfold Responder.receive
  split
  · simpa using hlen
  · rename_i hf
    have hlt : ¬ (r.maxsize ≤ r.queue.length) := fun hle =>
      hf ((queueFull_iff_of_bounded r hC).mpr hle)
    simp
    omega

theorem queueInv_step (C : Nat) (hC : 1 ≤ C) {s s' : SysState}
    (hst : Step s s') (h : QueueInv C s) : QueueInv C s' := by
  cases hst with
  | arrive i hi =>
      intro a ha
      dsimp only at ha
      rcases List.mem_or_eq_of_mem_set ha with ha | rfl
      · exact h a ha
      · have hai := h (s.agents.get ⟨i, hi⟩) (List.get_mem s.agents i hi)
        refine ⟨?_, ?_⟩
        · rw [receive_maxsize]; exact hai.1
        · dsimp only
          have hm : 1 ≤ (s.agents.get ⟨i, hi⟩).agent.maxsize := by
            rw [hai.1]; exact hC
          have hl : (s.agents.get ⟨i, hi⟩).agent.queue.length ≤
              (s.agents.get ⟨i, hi⟩).agent.maxsize := by
            rw [hai.1]; exact hai.2
          have hrecv := receive_queue_length _ s.nextCall hm hl
          rw [hai.1] at hrecv
          exact hrecv
  | getCall i hi c cs hq hp =>
      intro a ha
      dsimp only at ha
      rcases List.mem_or_eq_of_mem_set ha with ha | rfl
      · exact h a ha
      · have hai := h (s.agents.get ⟨i, hi⟩) (List.get_mem s.agents i hi)
        refine ⟨hai.1, ?_⟩
        have := hai.2
        rw [hq] at this
        simp at this ⊢
        omega
  | finishCall i hi c hp =>
      intro a ha
      dsimp only at ha
      rcases List.mem_or_eq_of_mem_set ha with ha | rfl
      · exact h a ha
      · have hai := h (s.agents.get ⟨i, hi⟩) (List.get_mem s.agents i hi)
        exact ⟨hai.1, hai.2⟩
  | endBreak i hi hp =>
      intro a ha
      dsimp only at ha
      rcases List.mem_or_eq_of_mem_set ha with ha | rfl
      · exact h a ha
      · have hai := h (s.agents.get ⟨i, hi⟩) (List.get_mem s.agents i hi)
        exact ⟨hai.1, hai.2⟩

theorem queueInv_init (n C : Nat) (mu : ℚ) (bt : Nat) (btime : ℚ) :
    QueueInv C (initSys n C mu bt btime) := by
  intro a ha
  simp only [initSys, List.mem_map] at ha
  obtain ⟨i, _, rfl⟩ := ha
  simp [Responder.init]

theorem reachable_queueInv (C : Nat) (hC : 1 ≤ C) {s0 s : SysState}
    (h0 : QueueInv C s0) (h : Reachable s0 s) : QueueInv C s := by
  induction h with
  | refl => exact h0
  | step _ hst ih => exact queueInv_step C hC hst ih

/-- One event on the shared client queue of `modele_kolejkowe.py`: either
the arrival loop attempts to enqueue the next client (`client_arrival`
admits iff `client_queue.qsize() < max_queue_size`, lines 57-65), or one of
the `worker` coroutines dequeues the oldest client (line 73). -/
inductive SharedOp
  | arriveOp
  | takeOp
  deriving DecidableEq

/-- `client_arrival` / `worker` step on (next client number, queue
contents).  The queue itself is `asyncio.Queue()` (unbounded); the bound is
enforced solely by the explicit `qsize() < max_queue_size` check of the
single producer.  Client numbers count from 1. -/
def client_arrival_step (max_queue_size : Nat) :
    Nat × List Nat → SharedOp → Nat × List Nat
  | (i, q), SharedOp.arriveOp =>
      (i + 1, if q.length < max_queue_size then q ++ [i] else q)
  | (i, q), SharedOp.takeOp => (i, q.drop 1)

def sharedQueueRun (max_queue_size : Nat) (ops : List SharedOp) :
    Nat × List Nat :=
  ops.foldl (client_arrival_step max_queue_size) (1, [])

theorem sharedQueue_length_le (max_queue_size : Nat) :
    ∀ (ops : List SharedOp) (st : Nat × List Nat),
      st.2.length ≤ max_queue_size →
      (ops.foldl (client_arrival_step max_queue_size) st).2.length ≤
        max_queue_size := by
  intro ops
  induction ops with
  | nil => intro st h; simpa using h
  | cons op rest ih =>
      intro st h
      rw [List.foldl_cons]
      apply ih
      cases op with
      | arriveOp =>
          rcases st with ⟨i, q⟩
          by_cases hq : q.length < max_queue_size <;>
            simp [client_arrival_step, hq] at h ⊢ <;> omega
      | takeOp =>
          rcases st with ⟨i, q⟩
          simp [client_arrival_step] at h ⊢
          omega

/-- C2: for every configured capacity `C ≥ 1`, in every reachable state of a
run no per-agent queue ever holds more than `C` calls (`simulation.py`,
where `receive` rejects on `queue.full()`); and the shared client queue of
`modele_kolejkowe.py` never holds more than `max_queue_size` clients under
any interleaving of arrivals and worker dequeues, because the single
producer admits only when `qsize() < max_queue_size`. -/
theorem queue_occupancy_bounded (n C : Nat) (mu : ℚ) (bt : Nat) (btime : ℚ)
    (s : SysState) (hC : 1 ≤ C)
    (h : Reachable (initSys n C mu bt btime) s) :
    (∀ a ∈ s.agents, a.agent.queue.length ≤ C) ∧
    ∀ ops : List SharedOp, (sharedQueueRun C ops).2.length ≤ C := by
  constructor
  · intro a ha
    exact (reachable_queueInv C hC (queueInv_init n C mu bt btime) h a ha).2
  · intro ops
    exact sharedQueue_length_le C ops (1, []) (by simp)

/-- Witness for C2 on a reachable two-agent state with one admitted call. -/
theorem queue_occupancy_bounded_witness :
    ((∀ a ∈ cexS1.agents, a.agent.queue.length ≤ 1) ∧
      ∀ ops : List SharedOp, (sharedQueueRun 1 ops).2.length ≤ 1) :=
  queue_occupancy_bounded 1 1 1 5 10 cexS1 (by decide)
    (Reachable.step Reachable.refl (Step.arrive cexS0 0 (by decide)))

/-- Pointwise break invariant: every agent keeps the configured threshold;
while on a break the counter still equals the threshold (it is reset only
when the break ends), and outside a break it is strictly below it. -/
def BreakInv (bt : Nat) (s : SysState) : Prop :=
  ∀ a ∈ s.agents,
    a.agent.break_threshold = bt ∧
    (a.phase = RPhase.onBreak → a.agent.calls_since_break = bt) ∧
    (a.phase ≠ RPhase.onBreak → a.agent.calls_since_break < bt)

theorem breakInv_step (bt : Nat) (hbt : 1 ≤ bt) {s s' : SysState}
    (hst : Step s s') (h : BreakInv bt s) : BreakInv bt s' := by
  cases hst with
  | arrive i hi =>
      intro a ha
      dsimp only at ha
      rcases List.mem_or_eq_of_mem_set ha with ha | rfl
      · exact h a ha
      · obtain ⟨h1, h2, h3⟩ := h (s.agents.get ⟨i, hi⟩) (List.get_mem s.agents i hi)
        obtain ⟨hb1, hb2⟩ := receive_break_fields (s.agents.get ⟨i, hi⟩).agent s.nextCall
        refine ⟨?_, ?_, ?_⟩ <;> dsimp only
        · rw [hb1]; exact h1
        · intro hp; rw [hb2]; exact h2 hp
        · intro hp; rw [hb2]; exact h3 hp
  | getCall i hi c cs hq hp =>
      intro a ha
      dsimp only at ha
      rcases List.mem_or_eq_of_mem_set ha with ha | rfl
      · exact h a ha
      · obtain ⟨h1, h2, h3⟩ := h (s.agents.get ⟨i, hi⟩) (List.get_mem s.agents i hi)
        refine ⟨h1, ?_, ?_⟩ <;> dsimp only
        · intro hcon; cases hcon
        · intro _
          exact h3 (by rw [hp]; intro hcon; cases hcon)
  | finishCall i hi c hp =>
      intro a ha
      dsimp only at ha
      rcases List.mem_or_eq_of_mem_set ha with ha | rfl
      · exact h a ha
      · obtain ⟨h1, h2, h3⟩ := h (s.agents.get ⟨i, hi⟩) (List.get_mem s.agents i hi)
        have hlt : (s.agents.get ⟨i, hi⟩).agent.calls_since_break < bt :=
          h3 (by rw [hp]; intro hcon; cases hcon)
        by_cases hcond : (s.agents.get ⟨i, hi⟩).agent.break_threshold ≤
            (s.agents.get ⟨i, hi⟩).agent.calls_since_break + 1
        · refine ⟨h1, ?_, ?_⟩ <;> dsimp only <;> rw [if_pos hcond]
          · intro _
            rw [h1] at hcond
            omega
          · intro hcon
            exact absurd rfl hcon
        · refine ⟨h1, ?_, ?_⟩ <;> dsimp only <;> rw [if_neg hcond]
          · intro hcon; cases hcon
          · intro _
            rw [h1] at hcond
            omega
  | endBreak i hi hp =>
      intro a ha
      dsimp only at ha
      rcases List.mem_or_eq_of_mem_set ha with ha | rfl
      · exact h a ha
      · obtain ⟨h1, h2, h3⟩ := h (s.agents.get ⟨i, hi⟩) (List.get_mem s.agents i hi)
        refine ⟨h1, ?_, ?_⟩ <;> dsimp only
        · intro hcon; cases hcon
        · intro _; omega

theorem breakInv_init (n C : Nat) (mu : ℚ) (bt : Nat) (btime : ℚ)
    (hbt : 1 ≤ bt) : BreakInv bt (initSys n C mu bt btime) := by
  intro a ha
  simp only [initSys, List.mem_map] at ha
  obtain ⟨i, _, rfl⟩ := ha
  refine ⟨rfl, ?_, ?_⟩ <;> dsimp only
  · intro hcon; cases hcon
  · intro _
    simp [Responder.init]
    omega

theorem reachable_breakInv (bt : Nat) (hbt : 1 ≤ bt) {s0 s : SysState}
    (h0 : BreakInv bt s0) (h : Reachable s0 s) : BreakInv bt s := by
  induction h with
  | refl => exact h0
  | step _ hst ih => exact breakInv_step bt hbt hst ih

/-- C7 (amended): for every agent in every reachable state of a run with
`break_threshold = bt ≥ 1`: while the agent is on a break its
`calls_since_break` still equals `bt` — so at the instant a break starts the
counter equals (and hence never exceeds) the threshold, and the reset to 0
happens exactly once per break, at the moment the break completes (the
`endBreak` transition), not when it starts; outside a break the counter is
strictly below the threshold, so a break is entered precisely when a
completed call brings the counter up to the threshold. -/
theorem break_counter_invariant (n C : Nat) (mu : ℚ) (bt : Nat) (btime : ℚ)
    (s : SysState) (hbt : 1 ≤ bt)
    (h : Reachable (initSys n C mu bt btime) s) :
    ∀ a ∈ s.agents,
      (a.phase = RPhase.onBreak → a.agent.calls_since_break = bt) ∧
      (a.phase ≠ RPhase.onBreak → a.agent.calls_since_break < bt) := by
  intro a ha
  obtain ⟨_, h2, h3⟩ :=
    reachable_breakInv bt hbt (breakInv_init n C mu bt btime hbt) h a ha
  exact ⟨h2, h3⟩

def brkAgent0 : AgentState :=
  { agent := Responder.init "Responder-1" 1 1 5 10, phase := RPhase.idle }

/-- Witness for C7 at the single agent of a freshly constructed run. -/
theorem break_counter_invariant_witness :
    (brkAgent0.phase = RPhase.onBreak → brkAgent0.agent.calls_since_break = 5) ∧
    (brkAgent0.phase ≠ RPhase.onBreak → brkAgent0.agent.calls_since_break < 5) :=
  break_counter_invariant 1 1 1 5 10 (initSys 1 1 1 5 10) (by decide)
    Reachable.refl brkAgent0 (by decide)

def cexB0 : SysState := initSys 1 1 1 1 10

def cexB1 : SysState :=
  { nextCall := 1,
    agents := [ { agent := { name := "Responder-1", maxsize := 1,
                             mean_handling_time := 1, break_threshold := 1,
                             break_time := 10, queue := [0], processed := 0,
                             rejected := 0, calls_since_break := 0 },
                  phase := RPhase.idle } ] }

def cexB2 : SysState :=
  { nextCall := 1,
    agents := [ { agent := { name := "Responder-1", maxsize := 1,
                             mean_handling_time := 1, break_threshold := 1,
                             break_time := 10, queue := [], processed := 0,
                             rejected := 0, calls_since_break := 0 },
                  phase := RPhase.handling 0 } ] }

def cexB3 : SysState :=
  { nextCall := 1,
    agents := [ { agent := { name := "Responder-1", maxsize := 1,
                             mean_handling_time := 1, break_threshold := 1,
                             break_time := 10, queue := [], processed := 1,
                             rejected := 0, calls_since_break := 1 },
                  phase := RPhase.onBreak } ] }

/-- C7 counterexample: one agent with `break_threshold = 1`; one call is
admitted, taken and handled, so the agent enters a break.  In this reachable
state the break has started yet `calls_since_break` is 1, not 0:
`take_break` assigns `self.calls_since_break = 0` only after its
`asyncio.sleep`, i.e. when the break ends, so the counter is not reset
"exactly when a break starts" as claimed. -/
theorem break_reset_happens_at_break_end :
    Reachable cexB0 cexB3 ∧
    (cexB3.agents.map fun a => a.phase) = [RPhase.onBreak] ∧
    (cexB3.agents.map fun a => a.agent.calls_since_break) = [1] := by
  have st1 : Step cexB0 cexB1 := Step.arrive cexB0 0 (by decide)
  have st2 : Step cexB1 cexB2 :=
    Step.getCall cexB1 0 (by decide) 0 [] (by decide) (by decide)
  have st3 : Step cexB2 cexB3 := Step.finishCall cexB2 0 (by decide) 0 (by decide)
  exact ⟨Reachable.step (Reachable.step (Reachable.step Reachable.refl st1) st2) st3,
    rfl, rfl⟩

/-- An operation on one agent's bounded queue: the dispatch loop attempting
to admit a call (`receive`), or the consumer worker taking one
(`queue.get()` in `run` / `worker`). -/
inductive QOp
  | admitOp (c : Nat)
  | takeOp
  deriving DecidableEq

/-- History-instrumented queue state: the live queue contents plus the list
of successfully admitted calls and the list of taken calls, each in event
order. -/
structure FifoState where
  maxsize : Nat
  queue : List Nat
  admitted : List Nat
  taken : List Nat
  rejectedCount : Nat
  deriving DecidableEq

/-- One `asyncio.Queue` event: admission follows the `receive` logic (reject
iff `full()`), `take` removes the front — oldest — element (`get()` is
strict FIFO) and is a no-op while the queue is empty, when the consumer is
suspended in the cooperative wait of `await queue.get()`. -/
def fifoStep (s : FifoState) : QOp → FifoState
  | QOp.admitOp c =>
      if s.maxsize ≠ 0 ∧ s.maxsize ≤ s.queue.length then
        { s with rejectedCount := s.rejectedCount + 1 }
      else { s with queue := s.queue ++ [c], admitted := s.admitted ++ [c] }
  | QOp.takeOp =>
      match s.queue with
      | [] => s
      | c :: cs => { s with queue := cs, taken := s.taken ++ [c] }

def fifoRun (maxsize : Nat) (ops : List QOp) : FifoState :=
  ops.foldl fifoStep
    { maxsize := maxsize, queue := [], admitted := [], taken := [], rejectedCount := 0 }

theorem fifoStep_preserves (ops : List QOp) :
    ∀ s : FifoState, s.taken ++ s.queue = s.admitted →
      (ops.foldl fifoStep s).taken ++ (ops.foldl fifoStep s).queue =
        (ops.foldl fifoStep s).admitted := by
  induction ops with
  | nil => intro s h; simpa using h
  | cons op rest ih =>
      intro s h
      rw [List.foldl_cons]
      apply ih
      cases op with
      | admitOp c =>
          by_cases hfull : s.maxsize ≠ 0 ∧ s.maxsize ≤ s.queue.length
          · simpa [fifoStep, hfull] using h
          · simp [fifoStep, hfull, ← List.append_assoc, h]
      | takeOp =>
          cases hq : s.queue with
          | nil => simpa [fifoStep, hq] using h
          | cons c cs =>
              have h2 : s.admitted = s.taken ++ c :: cs := by rw [← h, hq]
              simp [fifoStep, hq, h2]

/-- C4: for every sequence of interleaved admit/take operations on a queue,
the taken calls followed by the still-queued calls are exactly the
successfully admitted calls in admission order.  Hence the dequeue order is
exactly the admission order (the taken list is always a prefix of the
admitted list — strict FIFO, no priority) and each take removes and returns
the oldest admitted call still present. -/
theorem fifo_order (maxsize : Nat) (ops : List QOp) :
    (fifoRun maxsize ops).taken ++ (fifoRun maxsize ops).queue =
      (fifoRun maxsize ops).admitted ∧
    (fifoRun maxsize ops).taken <+: (fifoRun maxsize ops).admitted := by
  have h := fifoStep_preserves ops
    { maxsize := maxsize, queue := [], admitted := [], taken := [], rejectedCount := 0 }
    (by simp)
  exact ⟨h, ⟨(fifoRun maxsize ops).queue, h⟩⟩

/-- An observable event of an arrival source: producing a call identifier or
suspending for one inter-arrival draw. -/
inductive GenEvent
  | produce (call : Nat)
  | suspend
  deriving DecidableEq

/-- Trace of the first `n` loop iterations of the generator inside
`create_calls_generator_poisson` (`simulation.py` lines 77-86), starting
from counter value `call`: each iteration first yields the current counter,
increments it, and only then sleeps for one inter-arrival draw. -/
def create_calls_generator_poisson (call : Nat) : Nat → List GenEvent
  | 0 => []
  | n + 1 =>
      GenEvent.produce call :: GenEvent.suspend ::
        create_calls_generator_poisson (call + 1) n

/-- Trace of the first `n` iterations of the `client_arrival` loop
(`modele_kolejkowe.py` lines 52-67) starting from client number `i`: each
iteration first draws and sleeps the inter-arrival time and only then
produces `Client-i`, with `i` counting from 1. -/
def client_arrival (i : Nat) : Nat → List GenEvent
  | 0 => []
  | n + 1 => GenEvent.suspend :: GenEvent.produce i :: client_arrival (i + 1) n

theorem create_calls_generator_poisson_unroll :
    ∀ (n call : Nat),
      create_calls_generator_poisson call n =
        (List.range n).flatMap
          (fun k => [GenEvent.produce (call + k), GenEvent.suspend]) := by
  intro n
  induction n with
  | zero => intro call; simp [create_calls_generator_poisson]
  | succ m ih =>
      intro call
      rw [List.range_succ_eq_map, List.flatMap_cons, List.flatMap_map]
      simp only [create_calls_generator_poisson, Nat.add_zero, List.cons_append,
        List.nil_append]
      rw [ih (call + 1)]
      have hfun : (fun a : Nat => [GenEvent.produce (call + a.succ), GenEvent.suspend]) =
          fun k : Nat => [GenEvent.produce (call + 1 + k), GenEvent.suspend] := by
        funext a
        have hk : call + a.succ = call + 1 + a := by omega
        rw [hk]
      rw [hfun]

theorem client_arrival_unroll :
    ∀ (n i : Nat),
      client_arrival i n =
        (List.range n).flatMap
          (fun k => [GenEvent.suspend, GenEvent.produce (i + k)]) := by
  intro n
  induction n with
  | zero => intro i; simp [client_arrival]
  | succ m ih =>
      intro i
      rw [List.range_succ_eq_map, List.flatMap_cons, List.flatMap_map]
      simp only [client_arrival, Nat.add_zero, List.cons_append, List.nil_append]
      rw [ih (i + 1)]
      have hfun : (fun a : Nat => [GenEvent.suspend, GenEvent.produce (i + a.succ)]) =
          fun k : Nat => [GenEvent.suspend, GenEvent.produce (i + 1 + k)] := by
        funext a
        have hk : i + a.succ = i + 1 + a := by omega
        rw [hk]
      rw [hfun]

/-- C8 (amended): the Poisson generator of `simulation.py` produces call
identifiers 0, 1, 2, … — monotonically increasing from 0 — and each produced
call is followed (not preceded) by exactly one inter-arrival suspension: its
n-iteration trace is `produce 0, suspend, produce 1, suspend, …`.  The
`client_arrival` source of `modele_kolejkowe.py`, however, suspends for the
inter-arrival draw before each client and numbers clients from 1: its trace
is `suspend, produce 1, suspend, produce 2, …`. -/
theorem generator_traces (n : Nat) :
    create_calls_generator_poisson 0 n =
      (List.range n).flatMap (fun k => [GenEvent.produce k, GenEvent.suspend]) ∧
    client_arrival 1 n =
      (List.range n).flatMap
        (fun k => [GenEvent.suspend, GenEvent.produce (1 + k)]) := by
  constructor
  · have h := create_calls_generator_poisson_unroll n 0
    simpa using h
  · exact client_arrival_unroll n 1

/-- C8 counterexample: as stated, the claim is false of the
`client_arrival` arrival source: its very first event is a suspension (the
inter-arrival sleep precedes each client, including the first), and the
first produced identifier is 1, not 0 — in contrast to the Poisson
generator, whose first event produces call 0 with no preceding suspension. -/
theorem client_arrival_not_zero_based :
    client_arrival 1 2 =
      [GenEvent.suspend, GenEvent.produce 1, GenEvent.suspend,
        GenEvent.produce 2] ∧
    (client_arrival 1 2).head? = some GenEvent.suspend ∧
    (create_calls_generator_poisson 0 2).head? = some (GenEvent.produce 0) :=
  ⟨rfl, rfl, rfl⟩
